import Mathlib

/-!
Verification of the CNF satisfiability solver in `boolean_sat_solver.py`.

The data model follows §3 of the design document: a variable is an abstract
name (a Python string), a literal is a `(variable, polarity)` pair, a clause
is an ordered list of literals, a formula an ordered list of clauses, and an
assignment is a Python `dict` from variable to boolean.  The dict is embedded
as an insertion-ordered association list with unique keys, together with the
three dict operations the solver uses: membership/lookup, item assignment
(`d[k] = v`), and `d1.update(d2)`.
-/

set_option autoImplicit false

abbrev Var := String

abbrev Literal := Var × Bool

abbrev Clause := List Literal

abbrev Formula := List Clause

abbrev Assignment := List (Var × Bool)

/-- `lookupA a v` models `a[v]` / `v in a` on a Python dict: the value stored
for the (unique) occurrence of key `v`, if any. -/
def lookupA : Assignment → Var → Option Bool
  | [], _ => none
  | (w, c) :: rest, v => if w = v then some c else lookupA rest v

/-- `containsA a v` models `v in a` on a Python dict. -/
def containsA (a : Assignment) (v : Var) : Bool :=
  (lookupA a v).isSome

/-- `setA a v c` models the dict item assignment `a[v] = c`: the value of an
existing key is replaced in place, a new key is appended at the end. -/
def setA : Assignment → Var → Bool → Assignment
  | [], v, c => [(v, c)]
  | (w, d) :: rest, v, c => if w = v then (w, c) :: rest else (w, d) :: setA rest v c

/-- `updateA a b` models the Python dict method `a.update(b)`: every entry of
`b` is stored into `a` in order, entries of `b` winning on common keys. -/
def updateA (a b : Assignment) : Assignment :=
  b.foldl (fun acc p => setA acc p.1 p.2) a

/-- Result of scanning the literals of one clause against the current
assignments, i.e. of the inner `for variable, value in clause` loop of
`simplify_with_unit_clauses`: either the variable of some literal is assigned with
matching value (the `break`, the clause is satisfied), or the loop finishes
with the list of literals whose variables were unassigned. -/
inductive ScanResult where
  | satisfied
  | reduced (c : Clause)
deriving DecidableEq

/-- The inner literal loop of `simplify_with_unit_clauses`: a literal whose
variable is assigned with matching value satisfies the whole clause (`break`);
a literal whose variable is assigned with a non-matching value is omitted
(`pass`); a literal on an unassigned variable is appended to the simplified
clause. -/
def scanClause (a : Assignment) : Clause → ScanResult
  | [] => .reduced []
  | (v, val) :: rest =>
    match lookupA a v with
    | some c =>
      if c = val then .satisfied
      else scanClause a rest
    | none =>
      match scanClause a rest with
      | .satisfied => .satisfied
      | .reduced c => .reduced ((v, val) :: c)

/-- The outer `for clause in formula` loop of `simplify_with_unit_clauses`,
threading the mutable arguments: `a` is the `assignments` dict, `acc` the
`simplified_formula` list built so far, `u` the `exists_unit_clause` flag.
`none` models the `return None` on an empty simplified clause
(CONTRADICTION); otherwise the result carries the surviving clauses, the
unit-clause flag and the final state of the `assignments` dict. -/
def simplifyGo (a : Assignment) (acc : Formula) (u : Bool) : Formula → Option (Formula × Bool × Assignment)
  | [] => some (acc, u, a)
  | clause :: rest =>
    match scanClause a clause with
    | .satisfied => simplifyGo a acc u rest
    | .reduced [] => none
    | .reduced [l] => simplifyGo (setA a l.1 l.2) acc true rest
    | .reduced (l1 :: l2 :: ls) => simplifyGo a (acc ++ [l1 :: l2 :: ls]) u rest

/-- `simplify_with_unit_clauses(formula, assignments)` from the source.  The
Python function mutates `assignments` and returns `None` (CONTRADICTION) or
the pair `(simplified_formula, exists_unit_clause)`; the embedding returns
the final `assignments` dict as a third component instead of mutating. -/
def simplify_with_unit_clauses (formula : Formula) (assignments : Assignment) :
    Option (Formula × Bool × Assignment) :=
  simplifyGo assignments [] false formula

/-- The variables occurring in the literals of a formula, in order of
occurrence (with repetitions). -/
def fvarsL (f : Formula) : List Var :=
  (f.map (fun c => c.map Prod.fst)).flatten

/-- The finite set of distinct variables of a formula. -/
def fvars (f : Formula) : Finset Var :=
  (fvarsL f).toFinset

/-- The finite set of keys of an assignment dict. -/
def domA (a : Assignment) : Finset Var :=
  (a.map Prod.fst).toFinset

/-- Outcome of the `while exists_unit_clause` propagation loop in
`try_assignment`: either `simplify_with_unit_clauses` returned `None` and the
`TypeError` handler fired (`contradiction`), or the loop exited with a
simplified formula and the extended assignments dict. -/
inductive PropOut where
  | contradiction
  | done (f : Formula) (a : Assignment)
deriving DecidableEq

/-- The `while exists_unit_clause` loop of `try_assignment`, with explicit
fuel bounding the number of iterations; `none` is fuel exhaustion, proved
unreachable for fuel exceeding the number of distinct unassigned variables
(each pass that reports a unit clause permanently assigns a fresh
variable). -/
def propagateAux : Nat → Formula → Assignment → Option PropOut
  | 0, _, _ => none
  | n + 1, f, a =>
    match simplify_with_unit_clauses f a with
    | none => some .contradiction
    | some (f', u, a') => if u then propagateAux n f' a' else some (.done f' a')

/-- The propagation fixpoint: the `while` loop of `try_assignment`, run with
sufficient fuel (never `none`, see `propagate_ne_none`). -/
def propagate (f : Formula) (a : Assignment) : Option PropOut :=
  propagateAux ((fvars f).card + 1) f a

/-- Observable outcome of a call to `satisfying_assignment`: a returned dict,
a returned `None` (UNSATISFIABLE), or an uncaught `IndexError` raised by
`formula[0][0]` when the first clause is empty. -/
inductive SatOutcome where
  | found (a : Assignment)
  | unsat
  | crash
deriving DecidableEq

/-- The recursion of `satisfying_assignment` with explicit fuel bounding the
recursion depth (`none` = fuel exhaustion, proved unreachable for fuel
exceeding the number of distinct variables).  The bodies of the two
`try_assignment({variable: val})` trials, `val = value` then `val = not
value`, are inlined; `try_assignment` below re-packages one trial. -/
def satAux : Nat → Formula → Option SatOutcome
  | 0, _ => none
  | n + 1, f =>
    match f with
    | [] => some (.found [])
    | [] :: _ => some .crash
    | ((v, b) :: ls) :: rest =>
      let t1 : Option SatOutcome :=
        match propagate (((v, b) :: ls) :: rest) [(v, b)] with
        | none => none
        | some .contradiction => some .unsat
        | some (.done f1 a1) =>
          match satAux n f1 with
          | none => none
          | some (.found asg) => some (.found (updateA asg a1))
          | some .unsat => some .unsat
          | some .crash => some .crash
      match t1 with
      | none => none
      | some (.found a) => some (.found a)
      | some .crash => some .crash
      | some .unsat =>
        let t2 : Option SatOutcome :=
          match propagate (((v, b) :: ls) :: rest) [(v, !b)] with
          | none => none
          | some .contradiction => some .unsat
          | some (.done f2 a2) =>
            match satAux n f2 with
            | none => none
            | some (.found asg) => some (.found (updateA asg a2))
            | some .unsat => some .unsat
            | some .crash => some .crash
        match t2 with
        | none => none
        | some r => some r

/-- The nested function `try_assignment(temp_assignment)` of the source, for
the formula `f` captured by the closure: run the propagation loop from the
seed dict, return `None` on contradiction, otherwise recurse on the residual
formula and on success merge via `assignment.update(temp_assignment)`.  The
fuel `n` is the fuel available for the recursive `satisfying_assignment`
call. -/
def try_assignment (n : Nat) (f : Formula) (temp_assignment : Assignment) : Option SatOutcome :=
  match propagate f temp_assignment with
  | none => none
  | some .contradiction => some .unsat
  | some (.done f' a') =>
    match satAux n f' with
    | none => none
    | some (.found asg) => some (.found (updateA asg a'))
    | some .unsat => some .unsat
    | some .crash => some .crash

/-- `satisfying_assignment(formula)` from the source, run with sufficient
fuel (never `none`, see the termination theorem). -/
def satisfying_assignment (formula : Formula) : Option SatOutcome :=
  satAux ((fvars formula).card + 1) formula

/-- A dict `A` satisfies a formula when every clause has at least one literal
`(v, b)` with `A` mapping `v` to `b`. -/
def satisfiesFormula (A : Assignment) (F : Formula) : Prop :=
  ∀ c ∈ F, ∃ p ∈ c, lookupA A p.1 = some p.2

/-- A total assignment `g` of booleans to variables satisfies a formula when
every clause has a literal `(v, b)` with `g v = b`. -/
def satisfiesTotal (g : Var → Bool) (F : Formula) : Prop :=
  ∀ c ∈ F, ∃ p ∈ c, g p.1 = p.2

/-- `g` agrees with every binding of the dict `a`. -/
def consistentA (g : Var → Bool) (a : Assignment) : Prop :=
  ∀ v c, lookupA a v = some c → g v = c

/-- Every binding of the dict `a` is also a binding of the dict `B`. -/
def extendsA (B a : Assignment) : Prop :=
  ∀ v c, lookupA a v = some c → lookupA B v = some c

/-- Looking a key up fails exactly when the key is absent from the dict. -/
theorem lookupA_eq_none_iff (a : Assignment) (v : Var) :
    lookupA a v = none ↔ v ∉ a.map Prod.fst := by
  induction a with
  | nil => simp [lookupA]
  | cons p rest ih =>
    obtain ⟨w, c⟩ := p
    by_cases h : w = v
    · subst h
      simp [lookupA]
    · simp [lookupA, h, ih, Ne.symm h]

/-- `containsA` is key membership. -/
theorem containsA_iff_mem (a : Assignment) (v : Var) :
    containsA a v = true ↔ v ∈ a.map Prod.fst := by
  rw [containsA, Option.isSome_iff_ne_none]
  constructor
  · intro h
    by_contra hmem
    exact h ((lookupA_eq_none_iff a v).mpr hmem)
  · intro h hnone
    exact (lookupA_eq_none_iff a v).mp hnone h

/-- After `a[w] = d`, looking up `w` yields `d`. -/
theorem lookupA_setA_self (a : Assignment) (w : Var) (d : Bool) :
    lookupA (setA a w d) w = some d := by
  induction a with
  | nil => simp [setA, lookupA]
  | cons p rest ih =>
    obtain ⟨x, c⟩ := p
    by_cases h : x = w
    · subst h
      simp [setA, lookupA]
    · simp [setA, lookupA, h, ih]

/-- After `a[w] = d`, other keys look up as before. -/
theorem lookupA_setA_ne (a : Assignment) (w v : Var) (d : Bool) (h : v ≠ w) :
    lookupA (setA a w d) v = lookupA a v := by
  have hwv : ¬ w = v := fun hh => h hh.symm
  induction a with
  | nil => simp [setA, lookupA, hwv]
  | cons p rest ih =>
    obtain ⟨x, c⟩ := p
    by_cases hx : x = w
    · subst hx
      simp [setA, lookupA, hwv]
    · simp only [setA, if_neg hx]
      by_cases hv : x = v
      · subst hv
        simp [lookupA]
      · simp [lookupA, hv, ih]

/-- A key present after `a[w] = d` is `w` or was already present. -/
theorem containsA_setA (a : Assignment) (w v : Var) (d : Bool)
    (h : containsA (setA a w d) v = true) : v = w ∨ containsA a v = true := by
  by_cases hv : v = w
  · exact Or.inl hv
  · right
    rw [containsA, lookupA_setA_ne a w v d hv] at h
    exact h

/-- Setting a fresh key appends it to the key list. -/
theorem setA_keys_of_not_mem (a : Assignment) (w : Var) (d : Bool)
    (h : lookupA a w = none) : (setA a w d).map Prod.fst = a.map Prod.fst ++ [w] := by
  induction a with
  | nil => simp [setA]
  | cons p rest ih =>
    obtain ⟨x, c⟩ := p
    rw [lookupA] at h
    by_cases hx : x = w
    · simp [hx] at h
    · simp only [setA, if_neg hx, List.map_cons, List.cons_append, List.cons.injEq, true_and]
      exact ih (by simpa [hx] using h)

/-- Setting a fresh key preserves uniqueness of keys. -/
theorem setA_nodup (a : Assignment) (w : Var) (d : Bool)
    (hw : lookupA a w = none) (h : (a.map Prod.fst).Nodup) :
    ((setA a w d).map Prod.fst).Nodup := by
  rw [setA_keys_of_not_mem a w d hw]
  have hwmem : w ∉ a.map Prod.fst := (lookupA_eq_none_iff a w).mp hw
  simp [List.nodup_append, h, hwmem]

/-- `a.update(b)` leaves keys outside `b` looking up as in `a`. -/
theorem lookupA_updateA_of_not_mem (a b : Assignment) (v : Var)
    (h : containsA b v = false) : lookupA (updateA a b) v = lookupA a v := by
  induction b generalizing a with
  | nil => simp [updateA]
  | cons p rest ih =>
    obtain ⟨w, c⟩ := p
    have hvw : v ≠ w := by
      intro hh
      subst hh
      simp [containsA, lookupA] at h
    have hrest : containsA rest v = false := by
      simp only [containsA, lookupA, if_neg (Ne.symm hvw)] at h
      exact h
    show lookupA (updateA (setA a w c) rest) v = lookupA a v
    rw [ih (setA a w c) hrest, lookupA_setA_ne a w v c hvw]

/-- `a.update(b)` makes every binding of `b` visible, provided the keys of
`b` are unique (as they are for a Python dict). -/
theorem lookupA_updateA_of_mem (a b : Assignment) (v : Var) (c : Bool)
    (hnd : (b.map Prod.fst).Nodup) (h : lookupA b v = some c) :
    lookupA (updateA a b) v = some c := by
  induction b generalizing a with
  | nil => simp [lookupA] at h
  | cons p rest ih =>
    obtain ⟨w, d⟩ := p
    simp only [List.map_cons, List.nodup_cons] at hnd
    rw [lookupA] at h
    by_cases hw : w = v
    · subst hw
      rw [if_pos rfl] at h
      have hdc : d = c := by injection h
      subst hdc
      have hrest : containsA rest w = false := by
        rw [← Bool.not_eq_true, containsA_iff_mem]
        exact hnd.1
      show lookupA (updateA (setA a w d) rest) w = some d
      rw [lookupA_updateA_of_not_mem (setA a w d) rest w hrest, lookupA_setA_self]
    · rw [if_neg hw] at h
      show lookupA (updateA (setA a w d) rest) v = some c
      exact ih (setA a w d) hnd.2 h

/-- A key present after `a.update(b)` was present in `a` or in `b`. -/
theorem containsA_updateA (a b : Assignment) (v : Var)
    (h : containsA (updateA a b) v = true) :
    containsA a v = true ∨ containsA b v = true := by
  induction b generalizing a with
  | nil => exact Or.inl h
  | cons p rest ih =>
    obtain ⟨w, c⟩ := p
    have h' : containsA (updateA (setA a w c) rest) v = true := h
    rcases ih (setA a w c) h' with hset | hrest
    · rcases containsA_setA a w v c hset with hvw | ha
      · subst hvw
        right
        simp [containsA, lookupA]
      · exact Or.inl ha
    · right
      by_cases hvw : w = v
      · simp [containsA, lookupA, hvw]
      · simpa [containsA, lookupA, hvw] using hrest

/-- Every literal of a reduced clause is a literal of the scanned clause
whose variable is unassigned. -/
theorem scanClause_reduced_mem (a : Assignment) (c c' : Clause)
    (h : scanClause a c = .reduced c') :
    ∀ l ∈ c', l ∈ c ∧ lookupA a l.1 = none := by
  induction c generalizing c' with
  | nil =>
    simp only [scanClause, ScanResult.reduced.injEq] at h
    subst h
    simp
  | cons p rest ih =>
    obtain ⟨v, val⟩ := p
    cases hl : lookupA a v with
    | some d =>
      by_cases hd : d = val
      · simp [scanClause, hl, hd] at h
      · simp only [scanClause, hl, if_neg hd] at h
        intro l hlmem
        obtain ⟨h1, h2⟩ := ih c' h l hlmem
        exact ⟨List.mem_cons_of_mem _ h1, h2⟩
    | none =>
      simp only [scanClause, hl] at h
      cases hs : scanClause a rest with
      | satisfied => simp [hs] at h
      | reduced c2 =>
        rw [hs] at h
        have hc : (v, val) :: c2 = c' := by injection h
        subst hc
        intro l hlmem
        rcases List.mem_cons.mp hlmem with h1 | h1
        · subst h1
          exact ⟨List.mem_cons_self _ _, hl⟩
        · obtain ⟨ha, hb⟩ := ih c2 hs l h1
          exact ⟨List.mem_cons_of_mem _ ha, hb⟩

/-- The clause-level `break` fires exactly when the variable of some literal is
assigned with matching value. -/
theorem scanClause_satisfied_iff (a : Assignment) (c : Clause) :
    scanClause a c = .satisfied ↔ ∃ l ∈ c, lookupA a l.1 = some l.2 := by
  induction c with
  | nil => simp [scanClause]
  | cons p rest ih =>
    obtain ⟨v, val⟩ := p
    constructor
    · intro h
      cases hl : lookupA a v with
      | some d =>
        by_cases hd : d = val
        · exact ⟨(v, val), List.mem_cons_self _ _, by rw [hl, hd]⟩
        · simp only [scanClause, hl, if_neg hd] at h
          obtain ⟨l, hm, he⟩ := ih.mp h
          exact ⟨l, List.mem_cons_of_mem _ hm, he⟩
      | none =>
        simp only [scanClause, hl] at h
        cases hs : scanClause a rest with
        | satisfied =>
          obtain ⟨l, hm, he⟩ := ih.mp hs
          exact ⟨l, List.mem_cons_of_mem _ hm, he⟩
        | reduced c2 => simp [hs] at h
    · rintro ⟨l, hm, he⟩
      rcases List.mem_cons.mp hm with h1 | h1
      · subst h1
        simp [scanClause, he]
      · have hrest : scanClause a rest = .satisfied := ih.mpr ⟨l, h1, he⟩
        cases hl : lookupA a v with
        | some d =>
          by_cases hd : d = val
          · simp [scanClause, hl, hd]
          · simp [scanClause, hl, hd, hrest]
        | none => simp [scanClause, hl, hrest]

/-- A clause all of whose variables are unassigned scans to itself. -/
theorem scanClause_id (a : Assignment) (c : Clause)
    (h : ∀ l ∈ c, lookupA a l.1 = none) : scanClause a c = .reduced c := by
  induction c with
  | nil => simp [scanClause]
  | cons p rest ih =>
    obtain ⟨v, val⟩ := p
    have hv : lookupA a v = none := h (v, val) (List.mem_cons_self _ _)
    have hrest : scanClause a rest = .reduced rest :=
      ih fun l hl => h l (List.mem_cons_of_mem _ hl)
    simp [scanClause, hv, hrest]

/-- Literal omission is satisfaction-preserving for total assignments that
agree with the dict: if `g` satisfies the scanned clause, it satisfies the
reduced clause. -/
theorem scanClause_reduced_sat (g : Var → Bool) (a : Assignment) (c c' : Clause)
    (hcons : consistentA g a) (h : scanClause a c = .reduced c')
    (hsat : ∃ l ∈ c, g l.1 = l.2) : ∃ l ∈ c', g l.1 = l.2 := by
  induction c generalizing c' with
  | nil => simp at hsat
  | cons p rest ih =>
    obtain ⟨v, val⟩ := p
    obtain ⟨l, hm, he⟩ := hsat
    cases hl : lookupA a v with
    | some d =>
      by_cases hd : d = val
      · simp [scanClause, hl, hd] at h
      · simp only [scanClause, hl, if_neg hd] at h
        rcases List.mem_cons.mp hm with h1 | h1
        · exfalso
          subst h1
          exact hd (by rw [← hcons v d hl, he])
        · exact ih c' h ⟨l, h1, he⟩
    | none =>
      simp only [scanClause, hl] at h
      cases hs : scanClause a rest with
      | satisfied => simp [hs] at h
      | reduced c2 =>
        rw [hs] at h
        have hc : (v, val) :: c2 = c' := by injection h
        subst hc
        rcases List.mem_cons.mp hm with h1 | h1
        · exact ⟨l, by simp [h1], he⟩
        · obtain ⟨l2, hm2, he2⟩ := ih c2 hs ⟨l, h1, he⟩
          exact ⟨l2, List.mem_cons_of_mem _ hm2, he2⟩

/-- `fvarsL` distributes over clause cons. -/
theorem fvarsL_cons (c : Clause) (f : Formula) :
    fvarsL (c :: f) = c.map Prod.fst ++ fvarsL f := by
  simp [fvarsL]

/-- Membership in the variable list of a formula. -/
theorem mem_fvarsL (f : Formula) (v : Var) :
    v ∈ fvarsL f ↔ ∃ c ∈ f, ∃ l ∈ c, l.1 = v := by
  simp only [fvarsL, List.mem_flatten, List.mem_map]
  constructor
  · rintro ⟨l, ⟨c, hc, rfl⟩, hv⟩
    obtain ⟨p, hp, rfl⟩ := List.mem_map.mp hv
    exact ⟨c, hc, p, hp, rfl⟩
  · rintro ⟨c, hc, p, hp, rfl⟩
    exact ⟨c.map Prod.fst, ⟨c, hc, rfl⟩, List.mem_map_of_mem _ hp⟩

/-- A variable of a clause of a formula is a variable of the formula. -/
theorem mem_fvarsL_of_mem (f : Formula) (c : Clause) (l : Literal)
    (hc : c ∈ f) (hl : l ∈ c) : l.1 ∈ fvarsL f :=
  (mem_fvarsL f l.1).mpr ⟨c, hc, l, hl, rfl⟩

/-- Any run of the clause loop equals the run from empty accumulator and
cleared flag: the accumulated clauses are prepended and the flags or-ed. -/
theorem simplifyGo_eq_base (f : Formula) (a : Assignment) (acc : Formula) (u : Bool) :
    simplifyGo a acc u f =
      match simplifyGo a [] false f with
      | none => none
      | some (f', u', a') => some (acc ++ f', u || u', a') := by
  induction f generalizing a acc u with
  | nil => simp [simplifyGo]
  | cons clause rest ih =>
    cases hs : scanClause a clause with
    | satisfied =>
      simp only [simplifyGo, hs]
      exact ih a acc u
    | reduced c' =>
      match c' with
      | [] => simp [simplifyGo, hs]
      | [l] =>
        simp only [simplifyGo, hs]
        rw [ih (setA a l.1 l.2) acc true, ih (setA a l.1 l.2) [] true]
        cases simplifyGo (setA a l.1 l.2) [] false rest with
        | none => rfl
        | some r =>
          obtain ⟨f', u', a'⟩ := r
          simp
      | l1 :: l2 :: ls =>
        simp only [simplifyGo, hs, List.nil_append]
        rw [ih a (acc ++ [l1 :: l2 :: ls]) u, ih a [l1 :: l2 :: ls] false]
        cases simplifyGo a [] false rest with
        | none => rfl
        | some r =>
          obtain ⟨f', u', a'⟩ := r
          simp

/-- Decomposition of a successful run: output formula is the accumulator
followed by the clauses the loop emitted from `f`; flag is or-ed in. -/
theorem simplifyGo_some_decomp {f : Formula} {a : Assignment} {acc : Formula} {u : Bool}
    {f' : Formula} {u' : Bool} {a' : Assignment}
    (h : simplifyGo a acc u f = some (f', u', a')) :
    ∃ g' w, simplifyGo a [] false f = some (g', w, a') ∧ f' = acc ++ g' ∧ u' = (u || w) := by
  rw [simplifyGo_eq_base] at h
  cases hbase : simplifyGo a [] false f with
  | none => simp [hbase] at h
  | some r =>
    obtain ⟨g', w, a2⟩ := r
    rw [hbase] at h
    simp only [Option.some.injEq, Prod.mk.injEq] at h
    obtain ⟨h1, h2, h3⟩ := h
    subst h3
    exact ⟨g', w, rfl, h1.symm, h2.symm⟩

/-- A run started with the unit flag already set reports the flag set. -/
theorem simplifyGo_flag_mono {f : Formula} {a : Assignment} {acc : Formula}
    {f' : Formula} {u' : Bool} {a' : Assignment}
    (h : simplifyGo a acc true f = some (f', u', a')) : u' = true := by
  obtain ⟨g', w, _, _, hu⟩ := simplifyGo_some_decomp h
  simp [hu]

/-- `fvarsL` distributes over formula append. -/
theorem fvarsL_append (f g : Formula) : fvarsL (f ++ g) = fvarsL f ++ fvarsL g := by
  simp [fvarsL]

/-- The clause loop only adds bindings: existing dict bindings survive. -/
theorem simplifyGo_lookup_mono (f : Formula) :
    ∀ (a : Assignment) (acc : Formula) (u : Bool) (f' : Formula) (u' : Bool) (a' : Assignment),
    simplifyGo a acc u f = some (f', u', a') →
    ∀ v c, lookupA a v = some c → lookupA a' v = some c := by
  induction f with
  | nil =>
    intro a acc u f' u' a' h v c hv
    simp only [simplifyGo, Option.some.injEq, Prod.mk.injEq] at h
    obtain ⟨-, -, h3⟩ := h
    rw [← h3]
    exact hv
  | cons clause rest ih =>
    intro a acc u f' u' a' h v c hv
    cases hs : scanClause a clause with
    | satisfied =>
      simp only [simplifyGo, hs] at h
      exact ih a acc u f' u' a' h v c hv
    | reduced c' =>
      match c' with
      | [] => simp [simplifyGo, hs] at h
      | [l] =>
        simp only [simplifyGo, hs] at h
        have hnone : lookupA a l.1 = none :=
          (scanClause_reduced_mem a clause [l] hs l (by simp)).2
        have hne : v ≠ l.1 := by
          intro he
          rw [he, hnone] at hv
          cases hv
        refine ih _ acc true f' u' a' h v c ?_
        rw [lookupA_setA_ne a l.1 v l.2 hne]
        exact hv
      | l1 :: l2 :: ls =>
        simp only [simplifyGo, hs] at h
        exact ih a _ u f' u' a' h v c hv

/-- Every key of the final dict was a key of the initial dict or a variable
of the processed formula. -/
theorem simplifyGo_keys (f : Formula) :
    ∀ (a : Assignment) (acc : Formula) (u : Bool) (f' : Formula) (u' : Bool) (a' : Assignment),
    simplifyGo a acc u f = some (f', u', a') →
    ∀ v, containsA a' v = true → containsA a v = true ∨ v ∈ fvarsL f := by
  induction f with
  | nil =>
    intro a acc u f' u' a' h v hv
    simp only [simplifyGo, Option.some.injEq, Prod.mk.injEq] at h
    obtain ⟨-, -, h3⟩ := h
    subst h3
    exact Or.inl hv
  | cons clause rest ih =>
    intro a acc u f' u' a' h v hv
    have lift : v ∈ fvarsL rest → v ∈ fvarsL (clause :: rest) := by
      intro hmem
      rw [fvarsL_cons]
      exact List.mem_append_right _ hmem
    cases hs : scanClause a clause with
    | satisfied =>
      simp only [simplifyGo, hs] at h
      rcases ih a acc u f' u' a' h v hv with h1 | h1
      · exact Or.inl h1
      · exact Or.inr (lift h1)
    | reduced c' =>
      match c' with
      | [] => simp [simplifyGo, hs] at h
      | [l] =>
        simp only [simplifyGo, hs] at h
        rcases ih _ acc true f' u' a' h v hv with h1 | h1
        · rcases containsA_setA a l.1 v l.2 h1 with rfl | h2
          · exact Or.inr (mem_fvarsL_of_mem _ clause l (List.mem_cons_self _ _)
              (scanClause_reduced_mem a clause [l] hs l (by simp)).1)
          · exact Or.inl h2
        · exact Or.inr (lift h1)
      | l1 :: l2 :: ls =>
        simp only [simplifyGo, hs] at h
        rcases ih a _ u f' u' a' h v hv with h1 | h1
        · exact Or.inl h1
        · exact Or.inr (lift h1)

/-- Every variable of the output formula is a variable of the accumulator or
of the input formula. -/
theorem simplifyGo_vars (f : Formula) :
    ∀ (a : Assignment) (acc : Formula) (u : Bool) (f' : Formula) (u' : Bool) (a' : Assignment),
    simplifyGo a acc u f = some (f', u', a') →
    ∀ v, v ∈ fvarsL f' → v ∈ fvarsL acc ∨ v ∈ fvarsL f := by
  induction f with
  | nil =>
    intro a acc u f' u' a' h v hv
    simp only [simplifyGo, Option.some.injEq, Prod.mk.injEq] at h
    obtain ⟨h1, -, -⟩ := h
    subst h1
    exact Or.inl hv
  | cons clause rest ih =>
    intro a acc u f' u' a' h v hv
    have lift : v ∈ fvarsL rest → v ∈ fvarsL (clause :: rest) := by
      intro hmem
      rw [fvarsL_cons]
      exact List.mem_append_right _ hmem
    cases hs : scanClause a clause with
    | satisfied =>
      simp only [simplifyGo, hs] at h
      rcases ih a acc u f' u' a' h v hv with h1 | h1
      · exact Or.inl h1
      · exact Or.inr (lift h1)
    | reduced c' =>
      match c' with
      | [] => simp [simplifyGo, hs] at h
      | [l] =>
        simp only [simplifyGo, hs] at h
        rcases ih _ acc true f' u' a' h v hv with h1 | h1
        · exact Or.inl h1
        · exact Or.inr (lift h1)
      | l1 :: l2 :: ls =>
        simp only [simplifyGo, hs] at h
        rcases ih a _ u f' u' a' h v hv with h1 | h1
        · rcases List.mem_append.mp (by rw [← fvarsL_append]; exact h1 :
            v ∈ fvarsL acc ++ fvarsL [l1 :: l2 :: ls]) with h2 | h2
          · exact Or.inl h2
          · obtain ⟨c2, hc2, l, hl, rfl⟩ := (mem_fvarsL _ v).mp h2
            have hc2' : c2 = l1 :: l2 :: ls := by simpa using hc2
            subst hc2'
            exact Or.inr (mem_fvarsL_of_mem _ clause l (List.mem_cons_self _ _)
              (scanClause_reduced_mem a clause _ hs l hl).1)
        · exact Or.inr (lift h1)

/-- A run that starts and ends with a cleared unit flag leaves the dict
untouched, and every emitted clause has at least two literals, all on
unassigned variables. -/
theorem simplifyGo_flagfalse (f : Formula) :
    ∀ (a : Assignment) (acc f' : Formula) (a' : Assignment),
    simplifyGo a acc false f = some (f', false, a') →
    a' = a ∧ ∀ c ∈ f', c ∈ acc ∨ (2 ≤ c.length ∧ ∀ l ∈ c, lookupA a l.1 = none) := by
  induction f with
  | nil =>
    intro a acc f' a' h
    simp only [simplifyGo, Option.some.injEq, Prod.mk.injEq] at h
    obtain ⟨h1, -, h3⟩ := h
    subst h1
    exact ⟨h3.symm, fun c hc => Or.inl hc⟩
  | cons clause rest ih =>
    intro a acc f' a' h
    cases hs : scanClause a clause with
    | satisfied =>
      simp only [simplifyGo, hs] at h
      exact ih a acc f' a' h
    | reduced c' =>
      match c' with
      | [] => simp [simplifyGo, hs] at h
      | [l] =>
        simp only [simplifyGo, hs] at h
        exact (Bool.false_ne_true (simplifyGo_flag_mono h)).elim
      | l1 :: l2 :: ls =>
        simp only [simplifyGo, hs] at h
        obtain ⟨ha, hcl⟩ := ih a (acc ++ [l1 :: l2 :: ls]) f' a' h
        refine ⟨ha, fun c hc => ?_⟩
        rcases hcl c hc with hmem | hprop
        · rcases List.mem_append.mp hmem with h1 | h1
          · exact Or.inl h1
          · have hc2 : c = l1 :: l2 :: ls := by simpa using h1
            subst hc2
            refine Or.inr ⟨by simp only [List.length_cons]; omega, fun l hl => ?_⟩
            exact (scanClause_reduced_mem a clause _ hs l hl).2
        · exact Or.inr hprop

/-- A pass that reports the unit flag (not already set on entry) assigned at
least one previously-unassigned variable of the formula. -/
theorem simplifyGo_newvar (f : Formula) :
    ∀ (a : Assignment) (acc : Formula) (u : Bool) (f' : Formula) (a' : Assignment),
    simplifyGo a acc u f = some (f', true, a') →
    u = true ∨ ∃ w, w ∈ fvarsL f ∧ lookupA a w = none ∧ containsA a' w = true := by
  induction f with
  | nil =>
    intro a acc u f' a' h
    simp only [simplifyGo, Option.some.injEq, Prod.mk.injEq] at h
    exact Or.inl h.2.1
  | cons clause rest ih =>
    intro a acc u f' a' h
    have lift : ∀ w, w ∈ fvarsL rest → w ∈ fvarsL (clause :: rest) := by
      intro w hmem
      rw [fvarsL_cons]
      exact List.mem_append_right _ hmem
    cases hs : scanClause a clause with
    | satisfied =>
      simp only [simplifyGo, hs] at h
      rcases ih a acc u f' a' h with h1 | ⟨w, hw1, hw2, hw3⟩
      · exact Or.inl h1
      · exact Or.inr ⟨w, lift w hw1, hw2, hw3⟩
    | reduced c' =>
      match c' with
      | [] => simp [simplifyGo, hs] at h
      | [l] =>
        simp only [simplifyGo, hs] at h
        refine Or.inr ⟨l.1, ?_, ?_, ?_⟩
        · exact mem_fvarsL_of_mem _ clause l (List.mem_cons_self _ _)
            (scanClause_reduced_mem a clause [l] hs l (by simp)).1
        · exact (scanClause_reduced_mem a clause [l] hs l (by simp)).2
        · have hl : lookupA a' l.1 = some l.2 :=
            simplifyGo_lookup_mono rest _ acc true f' true a' h l.1 l.2
              (lookupA_setA_self a l.1 l.2)
          simp [containsA, hl]
      | l1 :: l2 :: ls =>
        simp only [simplifyGo, hs] at h
        rcases ih a _ u f' a' h with h1 | ⟨w, hw1, hw2, hw3⟩
        · exact Or.inl h1
        · exact Or.inr ⟨w, lift w hw1, hw2, hw3⟩

/-- The clause loop preserves uniqueness of dict keys. -/
theorem simplifyGo_nodup (f : Formula) :
    ∀ (a : Assignment) (acc : Formula) (u : Bool) (f' : Formula) (u' : Bool) (a' : Assignment),
    simplifyGo a acc u f = some (f', u', a') →
    (a.map Prod.fst).Nodup → (a'.map Prod.fst).Nodup := by
  induction f with
  | nil =>
    intro a acc u f' u' a' h hnd
    simp only [simplifyGo, Option.some.injEq, Prod.mk.injEq] at h
    obtain ⟨-, -, h3⟩ := h
    rw [← h3]
    exact hnd
  | cons clause rest ih =>
    intro a acc u f' u' a' h hnd
    cases hs : scanClause a clause with
    | satisfied =>
      simp only [simplifyGo, hs] at h
      exact ih a acc u f' u' a' h hnd
    | reduced c' =>
      match c' with
      | [] => simp [simplifyGo, hs] at h
      | [l] =>
        simp only [simplifyGo, hs] at h
        exact ih _ acc true f' u' a' h
          (setA_nodup a l.1 l.2 (scanClause_reduced_mem a clause [l] hs l (by simp)).2 hnd)
      | l1 :: l2 :: ls =>
        simp only [simplifyGo, hs] at h
        exact ih a _ u f' u' a' h hnd

/-- Rerunning the clause loop on clauses of length at least two built only
from unassigned variables emits them all unchanged: no clause is satisfied,
none shrinks, no unit is found, the dict does not change. -/
theorem simplifyGo_rerun (f' : Formula) :
    ∀ (a : Assignment) (acc : Formula) (u : Bool),
    (∀ c ∈ f', 2 ≤ c.length ∧ ∀ l ∈ c, lookupA a l.1 = none) →
    simplifyGo a acc u f' = some (acc ++ f', u, a) := by
  induction f' with
  | nil =>
    intro a acc u _
    simp [simplifyGo]
  | cons c rest ih =>
    intro a acc u h
    obtain ⟨hlen, hlits⟩ := h c (List.mem_cons_self _ _)
    have hscan : scanClause a c = .reduced c := scanClause_id a c hlits
    cases c with
    | nil => simp at hlen
    | cons l1 ctl =>
      cases ctl with
      | nil => simp at hlen
      | cons l2 ls =>
        simp only [simplifyGo, hscan]
        rw [ih a (acc ++ [l1 :: l2 :: ls]) u (fun c2 hc2 => h c2 (List.mem_cons_of_mem _ hc2))]
        simp

/-- Propagation soundness: any dict extending the final assignments that
satisfies the surviving clauses satisfies the whole input formula. -/
theorem simplifyGo_sound (f : Formula) :
    ∀ (a : Assignment) (acc : Formula) (u : Bool) (f' : Formula) (u' : Bool) (a' : Assignment),
    simplifyGo a acc u f = some (f', u', a') →
    ∀ B, extendsA B a' → satisfiesFormula B f' → satisfiesFormula B f := by
  induction f with
  | nil =>
    intro a acc u f' u' a' _ B _ _ c hc
    exact absurd hc (List.not_mem_nil c)
  | cons clause rest ih =>
    intro a acc u f' u' a' h B hB hF
    cases hs : scanClause a clause with
    | satisfied =>
      simp only [simplifyGo, hs] at h
      intro c hc
      rcases List.mem_cons.mp hc with rfl | hc2
      · obtain ⟨l, hl, he⟩ := (scanClause_satisfied_iff a c).mp hs
        exact ⟨l, hl, hB l.1 l.2 (simplifyGo_lookup_mono rest a acc u f' u' a' h l.1 l.2 he)⟩
      · exact ih a acc u f' u' a' h B hB hF c hc2
    | reduced c' =>
      match c' with
      | [] => simp [simplifyGo, hs] at h
      | [l] =>
        simp only [simplifyGo, hs] at h
        intro c hc
        rcases List.mem_cons.mp hc with rfl | hc2
        · have hl : l ∈ c := (scanClause_reduced_mem a c [l] hs l (by simp)).1
          have hlk : lookupA a' l.1 = some l.2 :=
            simplifyGo_lookup_mono rest _ acc true f' u' a' h l.1 l.2
              (lookupA_setA_self a l.1 l.2)
          exact ⟨l, hl, hB l.1 l.2 hlk⟩
        · exact ih _ acc true f' u' a' h B hB hF c hc2
      | l1 :: l2 :: ls =>
        simp only [simplifyGo, hs] at h
        intro c hc
        rcases List.mem_cons.mp hc with rfl | hc2
        · obtain ⟨g', w, hbase, hf', hu⟩ := simplifyGo_some_decomp h
          have hcmem : (l1 :: l2 :: ls) ∈ f' := by
            rw [hf']
            exact List.mem_append_left _ (by simp)
          obtain ⟨l, hl, he⟩ := hF _ hcmem
          exact ⟨l, (scanClause_reduced_mem a c _ hs l hl).1, he⟩
        · exact ih a _ u f' u' a' h B hB hF c hc2

/-- Propagation completeness: a total assignment agreeing with the dict that
satisfies the formula also satisfies the output clauses of the run, agrees with
the extended dict, and rules out a CONTRADICTION result. -/
theorem simplifyGo_complete (f : Formula) :
    ∀ (g : Var → Bool) (a : Assignment) (acc : Formula) (u : Bool),
    consistentA g a → satisfiesTotal g f → (∀ c ∈ acc, ∃ l ∈ c, g l.1 = l.2) →
    ∃ f' u' a', simplifyGo a acc u f = some (f', u', a') ∧ consistentA g a' ∧
      ∀ c ∈ f', ∃ l ∈ c, g l.1 = l.2 := by
  induction f with
  | nil =>
    intro g a acc u hcons _ hacc
    exact ⟨acc, u, a, rfl, hcons, hacc⟩
  | cons clause rest ih =>
    intro g a acc u hcons hsat hacc
    have hclause : ∃ l ∈ clause, g l.1 = l.2 := hsat clause (List.mem_cons_self _ _)
    have hrest : satisfiesTotal g rest := fun c hc => hsat c (List.mem_cons_of_mem _ hc)
    cases hs : scanClause a clause with
    | satisfied =>
      obtain ⟨f', u', a', hgo, h2, h3⟩ := ih g a acc u hcons hrest hacc
      refine ⟨f', u', a', ?_, h2, h3⟩
      simp only [simplifyGo, hs]
      exact hgo
    | reduced c' =>
      match c' with
      | [] =>
        exfalso
        obtain ⟨l, hl, -⟩ := scanClause_reduced_sat g a clause [] hcons hs hclause
        simp at hl
      | [l] =>
        have hgl : g l.1 = l.2 := by
          obtain ⟨l', hl', he'⟩ := scanClause_reduced_sat g a clause [l] hcons hs hclause
          have : l' = l := by simpa using hl'
          rw [this] at he'
          exact he'
        have hcons' : consistentA g (setA a l.1 l.2) := by
          intro v c hv
          by_cases hvl : v = l.1
          · subst hvl
            rw [lookupA_setA_self] at hv
            injection hv with hv
            rw [← hv]
            exact hgl
          · rw [lookupA_setA_ne a l.1 v l.2 hvl] at hv
            exact hcons v c hv
        obtain ⟨f', u', a', hgo, h2, h3⟩ := ih g (setA a l.1 l.2) acc true hcons' hrest hacc
        refine ⟨f', u', a', ?_, h2, h3⟩
        simp only [simplifyGo, hs]
        exact hgo
      | l1 :: l2 :: ls =>
        have hc' : ∃ l ∈ l1 :: l2 :: ls, g l.1 = l.2 :=
          scanClause_reduced_sat g a clause _ hcons hs hclause
        have hacc' : ∀ c ∈ acc ++ [l1 :: l2 :: ls], ∃ l ∈ c, g l.1 = l.2 := by
          intro c hc
          rcases List.mem_append.mp hc with h1 | h1
          · exact hacc c h1
          · have hc2 : c = l1 :: l2 :: ls := by simpa using h1
            subst hc2
            exact hc'
        obtain ⟨f', u', a', hgo, h2, h3⟩ := ih g a (acc ++ [l1 :: l2 :: ls]) u hcons hrest hacc'
        refine ⟨f', u', a', ?_, h2, h3⟩
        simp only [simplifyGo, hs]
        exact hgo

/-- Finset membership for formula variables. -/
theorem mem_fvars (f : Formula) (v : Var) : v ∈ fvars f ↔ v ∈ fvarsL f := by
  rw [fvars, List.mem_toFinset]

/-- Finset membership for dict keys. -/
theorem mem_domA (a : Assignment) (v : Var) : v ∈ domA a ↔ containsA a v = true := by
  rw [domA, List.mem_toFinset, containsA_iff_mem]

/-- A pass that reports the unit flag strictly shrinks the number of
distinct unassigned variables of the formula. -/
theorem simplify_measure_decrease {f : Formula} {a : Assignment} {f' : Formula} {a' : Assignment}
    (h : simplify_with_unit_clauses f a = some (f', true, a')) :
    (fvars f' \ domA a').card < (fvars f \ domA a).card := by
  have hgo : simplifyGo a [] false f = some (f', true, a') := h
  have hsub : fvars f' \ domA a' ⊆ fvars f \ domA a := by
    intro x hx
    rw [Finset.mem_sdiff] at hx ⊢
    obtain ⟨hx1, hx2⟩ := hx
    refine ⟨?_, ?_⟩
    · rw [mem_fvars] at hx1 ⊢
      rcases simplifyGo_vars f a [] false f' true a' hgo x hx1 with h1 | h1
      · simp [fvarsL] at h1
      · exact h1
    · intro hxd
      apply hx2
      rw [mem_domA] at hxd
      obtain ⟨c, hc⟩ := Option.isSome_iff_exists.mp hxd
      have hc' := simplifyGo_lookup_mono f a [] false f' true a' hgo x c hc
      rw [mem_domA]
      simp [containsA, hc']
  rcases simplifyGo_newvar f a [] false f' a' hgo with h1 | ⟨w, hw1, hw2, hw3⟩
  · cases h1
  · apply Finset.card_lt_card
    refine (Finset.ssubset_iff_of_subset hsub).mpr ⟨w, ?_, ?_⟩
    · rw [Finset.mem_sdiff, mem_fvars, mem_domA]
      exact ⟨hw1, by simp [containsA, hw2]⟩
    · rw [Finset.mem_sdiff]
      rintro ⟨-, hc2⟩
      exact hc2 ((mem_domA a' w).mpr hw3)

/-- The propagation loop cannot run out of fuel exceeding the number of
distinct unassigned variables: each iteration that loops again has found a
unit clause and so permanently assigned a fresh variable. -/
theorem propagateAux_ne_none : ∀ (n : Nat) (f : Formula) (a : Assignment),
    (fvars f \ domA a).card < n → propagateAux n f a ≠ none := by
  intro n
  induction n with
  | zero =>
    intro f a h
    exact absurd h (Nat.not_lt_zero _)
  | succ n ih =>
    intro f a h
    cases hsim : simplify_with_unit_clauses f a with
    | none => simp [propagateAux, hsim]
    | some r =>
      obtain ⟨f1, u, a1⟩ := r
      cases u with
      | false => simp [propagateAux, hsim]
      | true =>
        simp only [propagateAux, hsim, if_true]
        have hdec := simplify_measure_decrease hsim
        exact ih f1 a1 (by omega)

/-- The propagation loop never exhausts its fuel budget. -/
theorem propagate_ne_none (f : Formula) (a : Assignment) : propagate f a ≠ none := by
  apply propagateAux_ne_none
  have : (fvars f \ domA a).card ≤ (fvars f).card :=
    Finset.card_le_card (Finset.sdiff_subset)
  omega

/-- The propagation loop only adds bindings. -/
theorem propagateAux_done_mono : ∀ (n : Nat) (f : Formula) (a : Assignment)
    (f' : Formula) (a' : Assignment), propagateAux n f a = some (.done f' a') →
    ∀ v c, lookupA a v = some c → lookupA a' v = some c := by
  intro n
  induction n with
  | zero =>
    intro f a f' a' h
    simp [propagateAux] at h
  | succ n ih =>
    intro f a f' a' h v c hv
    cases hsim : simplify_with_unit_clauses f a with
    | none => simp [propagateAux, hsim] at h
    | some r =>
      obtain ⟨f1, u, a1⟩ := r
      have hmono1 := simplifyGo_lookup_mono f a [] false f1 u a1 hsim
      cases u with
      | true =>
        simp only [propagateAux, hsim, if_true] at h
        exact ih f1 a1 f' a' h v c (hmono1 v c hv)
      | false =>
        simp only [propagateAux, hsim, if_false, Option.some.injEq, PropOut.done.injEq] at h
        obtain ⟨rfl, rfl⟩ := h
        exact hmono1 v c hv

/-- Every key of the final dict of the loop was an initial key or a formula
variable. -/
theorem propagateAux_done_keys : ∀ (n : Nat) (f : Formula) (a : Assignment)
    (f' : Formula) (a' : Assignment), propagateAux n f a = some (.done f' a') →
    ∀ v, containsA a' v = true → containsA a v = true ∨ v ∈ fvarsL f := by
  intro n
  induction n with
  | zero =>
    intro f a f' a' h
    simp [propagateAux] at h
  | succ n ih =>
    intro f a f' a' h v hv
    cases hsim : simplify_with_unit_clauses f a with
    | none => simp [propagateAux, hsim] at h
    | some r =>
      obtain ⟨f1, u, a1⟩ := r
      cases u with
      | true =>
        simp only [propagateAux, hsim, if_true] at h
        rcases ih f1 a1 f' a' h v hv with h1 | h1
        · exact simplifyGo_keys f a [] false f1 true a1 hsim v h1
        · rcases simplifyGo_vars f a [] false f1 true a1 hsim v h1 with h2 | h2
          · simp [fvarsL] at h2
          · exact Or.inr h2
      | false =>
        simp only [propagateAux, hsim, if_false, Option.some.injEq, PropOut.done.injEq] at h
        obtain ⟨rfl, rfl⟩ := h
        exact simplifyGo_keys f a [] false f' false a' hsim v hv

/-- Every variable of the residual formula of the loop is a variable of the input
formula. -/
theorem propagateAux_done_vars : ∀ (n : Nat) (f : Formula) (a : Assignment)
    (f' : Formula) (a' : Assignment), propagateAux n f a = some (.done f' a') →
    ∀ v, v ∈ fvarsL f' → v ∈ fvarsL f := by
  intro n
  induction n with
  | zero =>
    intro f a f' a' h
    simp [propagateAux] at h
  | succ n ih =>
    intro f a f' a' h v hv
    cases hsim : simplify_with_unit_clauses f a with
    | none => simp [propagateAux, hsim] at h
    | some r =>
      obtain ⟨f1, u, a1⟩ := r
      cases u with
      | true =>
        simp only [propagateAux, hsim, if_true] at h
        rcases simplifyGo_vars f a [] false f1 true a1 hsim v (ih f1 a1 f' a' h v hv) with h1 | h1
        · simp [fvarsL] at h1
        · exact h1
      | false =>
        simp only [propagateAux, hsim, if_false, Option.some.injEq, PropOut.done.injEq] at h
        obtain ⟨rfl, rfl⟩ := h
        rcases simplifyGo_vars f a [] false f' false a' hsim v hv with h1 | h1
        · simp [fvarsL] at h1
        · exact h1

/-- On loop exit no variable of the residual formula is bound in the final
dict: the exiting pass found no unit clause, so its output clauses mention
only unassigned variables. -/
theorem propagateAux_done_unassigned : ∀ (n : Nat) (f : Formula) (a : Assignment)
    (f' : Formula) (a' : Assignment), propagateAux n f a = some (.done f' a') →
    ∀ v, v ∈ fvarsL f' → lookupA a' v = none := by
  intro n
  induction n with
  | zero =>
    intro f a f' a' h
    simp [propagateAux] at h
  | succ n ih =>
    intro f a f' a' h v hv
    cases hsim : simplify_with_unit_clauses f a with
    | none => simp [propagateAux, hsim] at h
    | some r =>
      obtain ⟨f1, u, a1⟩ := r
      cases u with
      | true =>
        simp only [propagateAux, hsim, if_true] at h
        exact ih f1 a1 f' a' h v hv
      | false =>
        simp only [propagateAux, hsim, if_false, Option.some.injEq, PropOut.done.injEq] at h
        obtain ⟨rfl, rfl⟩ := h
        obtain ⟨ha, hcl⟩ := simplifyGo_flagfalse f a [] f' a' hsim
        subst ha
        obtain ⟨c, hc, l, hl, rfl⟩ := (mem_fvarsL f' v).mp hv
        rcases hcl c hc with h1 | ⟨-, h2⟩
        · simp at h1
        · exact h2 l hl

/-- The residual formula of the loop is a propagation fixpoint: rerunning
`simplify_with_unit_clauses` on it with the final dict returns it unchanged
with no unit clause found. -/
theorem propagateAux_done_fix : ∀ (n : Nat) (f : Formula) (a : Assignment)
    (f' : Formula) (a' : Assignment), propagateAux n f a = some (.done f' a') →
    simplify_with_unit_clauses f' a' = some (f', false, a') := by
  intro n
  induction n with
  | zero =>
    intro f a f' a' h
    simp [propagateAux] at h
  | succ n ih =>
    intro f a f' a' h
    cases hsim : simplify_with_unit_clauses f a with
    | none => simp [propagateAux, hsim] at h
    | some r =>
      obtain ⟨f1, u, a1⟩ := r
      cases u with
      | true =>
        simp only [propagateAux, hsim, if_true] at h
        exact ih f1 a1 f' a' h
      | false =>
        simp only [propagateAux, hsim, if_false, Option.some.injEq, PropOut.done.injEq] at h
        obtain ⟨rfl, rfl⟩ := h
        obtain ⟨ha, hcl⟩ := simplifyGo_flagfalse f a [] f' a' hsim
        subst ha
        have hprop : ∀ c ∈ f', 2 ≤ c.length ∧ ∀ l ∈ c, lookupA a' l.1 = none := by
          intro c hc
          rcases hcl c hc with h1 | h1
          · simp at h1
          · exact h1
        have := simplifyGo_rerun f' a' [] false hprop
        simpa [simplify_with_unit_clauses] using this

/-- The propagation loop preserves uniqueness of dict keys. -/
theorem propagateAux_done_nodup : ∀ (n : Nat) (f : Formula) (a : Assignment)
    (f' : Formula) (a' : Assignment), propagateAux n f a = some (.done f' a') →
    (a.map Prod.fst).Nodup → (a'.map Prod.fst).Nodup := by
  intro n
  induction n with
  | zero =>
    intro f a f' a' h
    simp [propagateAux] at h
  | succ n ih =>
    intro f a f' a' h hnd
    cases hsim : simplify_with_unit_clauses f a with
    | none => simp [propagateAux, hsim] at h
    | some r =>
      obtain ⟨f1, u, a1⟩ := r
      have hnd1 := simplifyGo_nodup f a [] false f1 u a1 hsim hnd
      cases u with
      | true =>
        simp only [propagateAux, hsim, if_true] at h
        exact ih f1 a1 f' a' h hnd1
      | false =>
        simp only [propagateAux, hsim, if_false, Option.some.injEq, PropOut.done.injEq] at h
        obtain ⟨rfl, rfl⟩ := h
        exact hnd1

/-- Fixpoint propagation soundness: a dict extending the final assignments
that satisfies the residual formula satisfies the input formula. -/
theorem propagateAux_done_sound : ∀ (n : Nat) (f : Formula) (a : Assignment)
    (f' : Formula) (a' : Assignment), propagateAux n f a = some (.done f' a') →
    ∀ B, extendsA B a' → satisfiesFormula B f' → satisfiesFormula B f := by
  intro n
  induction n with
  | zero =>
    intro f a f' a' h
    simp [propagateAux] at h
  | succ n ih =>
    intro f a f' a' h B hB hF
    cases hsim : simplify_with_unit_clauses f a with
    | none => simp [propagateAux, hsim] at h
    | some r =>
      obtain ⟨f1, u, a1⟩ := r
      cases u with
      | true =>
        simp only [propagateAux, hsim, if_true] at h
        have hext : extendsA B a1 := by
          intro v c hc
          exact hB v c (propagateAux_done_mono n f1 a1 f' a' h v c hc)
        exact simplifyGo_sound f a [] false f1 true a1 hsim B hext (ih f1 a1 f' a' h B hB hF)
      | false =>
        simp only [propagateAux, hsim, if_false, Option.some.injEq, PropOut.done.injEq] at h
        obtain ⟨rfl, rfl⟩ := h
        exact simplifyGo_sound f a [] false f' false a' hsim B hB hF

/-- Fixpoint propagation completeness: a total assignment agreeing with the
seed dict that satisfies the formula forces the loop to exit successfully,
still agreeing with the extended dict and satisfying the residual
formula. -/
theorem propagateAux_complete : ∀ (n : Nat) (f : Formula) (a : Assignment)
    (g : Var → Bool) (r : PropOut), propagateAux n f a = some r →
    consistentA g a → satisfiesTotal g f →
    ∃ f' a', r = .done f' a' ∧ consistentA g a' ∧ satisfiesTotal g f' := by
  intro n
  induction n with
  | zero =>
    intro f a g r h
    simp [propagateAux] at h
  | succ n ih =>
    intro f a g r h hcons hsat
    obtain ⟨f1, u1, a1, hgo, hcons1, hsat1⟩ :=
      simplifyGo_complete f g a [] false hcons hsat (by simp)
    have hsim : simplify_with_unit_clauses f a = some (f1, u1, a1) := hgo
    cases u1 with
    | true =>
      simp only [propagateAux, hsim, if_true] at h
      exact ih f1 a1 g r h hcons1 hsat1
    | false =>
      simp only [propagateAux, hsim, Bool.false_eq_true, if_false, Option.some.injEq] at h
      exact ⟨f1, a1, h.symm, hcons1, hsat1⟩

/-- The residual formula of a completed propagation loop started from a seed
binding a variable of the formula has strictly fewer distinct variables. -/
theorem propagate_done_card {f : Formula} {a : Assignment} {f' : Formula} {a' : Assignment}
    (h : propagate f a = some (.done f' a')) (v : Var) (hv : v ∈ fvars f)
    (hca : containsA a v = true) : (fvars f').card < (fvars f).card := by
  have hsub : fvars f' ⊆ fvars f := by
    intro x hx
    rw [mem_fvars] at hx ⊢
    exact propagateAux_done_vars _ f a f' a' h x hx
  have hnot : v ∉ fvars f' := by
    intro hvf'
    obtain ⟨c, hc⟩ := Option.isSome_iff_exists.mp hca
    have h2 := propagateAux_done_mono _ f a f' a' h v c hc
    rw [propagateAux_done_unassigned _ f a f' a' h v ((mem_fvars f' v).mp hvf')] at h2
    cases h2
  exact Finset.card_lt_card ((Finset.ssubset_iff_of_subset hsub).mpr ⟨v, hv, hnot⟩)

/-- Unfolding of one level of the solver recursion on a formula with a
nonempty first clause: the two `try_assignment` trials run in order, the
as-written polarity first, and the first non-`None` trial result is
returned. -/
theorem satAux_succ (n : Nat) (v : Var) (b : Bool) (ls : Clause) (rest : Formula) :
    satAux (n + 1) (((v, b) :: ls) :: rest) =
      match try_assignment n (((v, b) :: ls) :: rest) [(v, b)] with
      | none => none
      | some (.found a) => some (.found a)
      | some .crash => some .crash
      | some .unsat =>
        match try_assignment n (((v, b) :: ls) :: rest) [(v, !b)] with
        | none => none
        | some r => some r := rfl

/-- Soundness of one trial: a dict returned through a trial satisfies the
formula, assuming soundness of the recursive solver call. -/
theorem try_assignment_found_sound (n : Nat) (f : Formula) (temp A : Assignment)
    (hnd : (temp.map Prod.fst).Nodup)
    (IH : ∀ (f1 : Formula) (A1 : Assignment), satAux n f1 = some (.found A1) →
      satisfiesFormula A1 f1)
    (h : try_assignment n f temp = some (.found A)) : satisfiesFormula A f := by
  cases hp : propagate f temp with
  | none => simp [try_assignment, hp] at h
  | some r =>
    cases r with
    | contradiction => simp [try_assignment, hp] at h
    | done f' a' =>
      simp only [try_assignment, hp] at h
      cases hs : satAux n f' with
      | none => simp [hs] at h
      | some s =>
        cases s with
        | unsat => simp [hs] at h
        | crash => simp [hs] at h
        | found asg =>
          simp only [hs, Option.some.injEq, SatOutcome.found.injEq] at h
          subst h
          have hnd' : (a'.map Prod.fst).Nodup :=
            propagateAux_done_nodup _ f temp f' a' hp hnd
          have hsat' : satisfiesFormula asg f' := IH f' asg hs
          have hext : extendsA (updateA asg a') a' := fun w c hc =>
            lookupA_updateA_of_mem asg a' w c hnd' hc
          have hsatU : satisfiesFormula (updateA asg a') f' := by
            intro c hc
            obtain ⟨l, hl, he⟩ := hsat' c hc
            refine ⟨l, hl, ?_⟩
            have hun : lookupA a' l.1 = none :=
              propagateAux_done_unassigned _ f temp f' a' hp l.1
                (mem_fvarsL_of_mem f' c l hc hl)
            rw [lookupA_updateA_of_not_mem asg a' l.1 (by simp [containsA, hun])]
            exact he
          exact propagateAux_done_sound _ f temp f' a' hp (updateA asg a') hext hsatU

/-- Soundness of the solver recursion: any returned dict satisfies the input
formula. -/
theorem satAux_found_sound : ∀ (n : Nat) (f : Formula) (A : Assignment),
    satAux n f = some (.found A) → satisfiesFormula A f := by
  intro n
  induction n with
  | zero =>
    intro f A h
    simp [satAux] at h
  | succ n ih =>
    intro f A h
    rcases f with - | ⟨c, rest⟩
    · simp only [satAux, Option.some.injEq, SatOutcome.found.injEq] at h
      subst h
      intro c hc
      exact absurd hc (List.not_mem_nil c)
    rcases c with - | ⟨⟨v, b⟩, ls⟩
    · simp [satAux] at h
    rw [satAux_succ] at h
    cases ht1 : try_assignment n (((v, b) :: ls) :: rest) [(v, b)] with
    | none => simp [ht1] at h
    | some s1 =>
      cases s1 with
      | found a =>
        simp only [ht1, Option.some.injEq, SatOutcome.found.injEq] at h
        subst h
        exact try_assignment_found_sound n _ [(v, b)] _ (by simp) ih ht1
      | crash => simp [ht1] at h
      | unsat =>
        simp only [ht1] at h
        cases ht2 : try_assignment n (((v, b) :: ls) :: rest) [(v, !b)] with
        | none => simp [ht2] at h
        | some s2 =>
          simp only [ht2] at h
          have hs2 : s2 = .found A := by injection h
          subst hs2
          exact try_assignment_found_sound n _ [(v, !b)] _ (by simp) ih ht2

/-- Completeness of one trial: a total assignment consistent with the seed
that satisfies the formula contradicts an UNSATISFIABLE trial outcome,
assuming completeness of the recursive solver call. -/
theorem try_assignment_unsat_complete (n : Nat) (f : Formula) (temp : Assignment)
    (g : Var → Bool)
    (IH : ∀ f1 : Formula, satAux n f1 = some .unsat → ¬ satisfiesTotal g f1)
    (h : try_assignment n f temp = some .unsat)
    (hcons : consistentA g temp) (hsat : satisfiesTotal g f) : False := by
  cases hp : propagate f temp with
  | none => exact propagate_ne_none f temp hp
  | some r =>
    obtain ⟨f', a', rfl, hcons', hsat'⟩ :=
      propagateAux_complete _ f temp g r hp hcons hsat
    simp only [try_assignment, hp] at h
    cases hs : satAux n f' with
    | none => simp [hs] at h
    | some s =>
      cases s with
      | found asg => simp [hs] at h
      | crash => simp [hs] at h
      | unsat => exact IH f' hs hsat'

/-- A singleton seed dict is consistent with any total assignment agreeing
on its one binding. -/
theorem consistentA_single (g : Var → Bool) (v : Var) (pol : Bool) (h : g v = pol) :
    consistentA g [(v, pol)] := by
  intro w c hw
  by_cases hwv : v = w
  · subst hwv
    rw [lookupA, if_pos rfl] at hw
    injection hw with hw
    rw [← hw]
    exact h
  · rw [lookupA, if_neg hwv, lookupA] at hw
    cases hw

/-- Completeness of the solver recursion: an UNSATISFIABLE answer rules out
every total assignment. -/
theorem satAux_unsat_complete : ∀ (n : Nat) (f : Formula),
    satAux n f = some .unsat → ∀ g : Var → Bool, ¬ satisfiesTotal g f := by
  intro n
  induction n with
  | zero =>
    intro f h
    simp [satAux] at h
  | succ n ih =>
    intro f h g hsat
    rcases f with - | ⟨c, rest⟩
    · simp [satAux] at h
    rcases c with - | ⟨⟨v, b⟩, ls⟩
    · simp [satAux] at h
    rw [satAux_succ] at h
    by_cases hgv : g v = b
    · cases ht1 : try_assignment n (((v, b) :: ls) :: rest) [(v, b)] with
      | none => simp [ht1] at h
      | some s1 =>
        cases s1 with
        | found a => simp [ht1] at h
        | crash => simp [ht1] at h
        | unsat =>
          exact try_assignment_unsat_complete n _ [(v, b)] g
            (fun f1 h1 => ih f1 h1 g) ht1 (consistentA_single g v b hgv) hsat
    · have hgv' : g v = !b := by
        cases hb : g v <;> cases b <;> simp_all
      cases ht1 : try_assignment n (((v, b) :: ls) :: rest) [(v, b)] with
      | none => simp [ht1] at h
      | some s1 =>
        cases s1 with
        | found a => simp [ht1] at h
        | crash => simp [ht1] at h
        | unsat =>
          simp only [ht1] at h
          cases ht2 : try_assignment n (((v, b) :: ls) :: rest) [(v, !b)] with
          | none => simp [ht2] at h
          | some s2 =>
            simp only [ht2] at h
            have hs2 : s2 = .unsat := by injection h
            subst hs2
            exact try_assignment_unsat_complete n _ [(v, !b)] g
              (fun f1 h1 => ih f1 h1 g) ht2 (consistentA_single g v (!b) hgv') hsat

/-- Key provenance of one trial: every key of a returned dict is a seed key
or a formula variable, assuming provenance of the recursive call. -/
theorem try_assignment_found_keys (n : Nat) (f : Formula) (temp A : Assignment)
    (IH : ∀ (f1 : Formula) (A1 : Assignment), satAux n f1 = some (.found A1) →
      ∀ w, containsA A1 w = true → w ∈ fvarsL f1)
    (h : try_assignment n f temp = some (.found A)) :
    ∀ w, containsA A w = true → containsA temp w = true ∨ w ∈ fvarsL f := by
  cases hp : propagate f temp with
  | none => simp [try_assignment, hp] at h
  | some r =>
    cases r with
    | contradiction => simp [try_assignment, hp] at h
    | done f' a' =>
      simp only [try_assignment, hp] at h
      cases hs : satAux n f' with
      | none => simp [hs] at h
      | some s =>
        cases s with
        | unsat => simp [hs] at h
        | crash => simp [hs] at h
        | found asg =>
          simp only [hs, Option.some.injEq, SatOutcome.found.injEq] at h
          subst h
          intro w hw
          rcases containsA_updateA asg a' w hw with h1 | h1
          · exact Or.inr (propagateAux_done_vars _ f temp f' a' hp w (IH f' asg hs w h1))
          · exact propagateAux_done_keys _ f temp f' a' hp w h1

/-- Key provenance of the solver recursion: every key of a returned dict is
a variable of the input formula. -/
theorem satAux_found_keys : ∀ (n : Nat) (f : Formula) (A : Assignment),
    satAux n f = some (.found A) → ∀ w, containsA A w = true → w ∈ fvarsL f := by
  intro n
  induction n with
  | zero =>
    intro f A h
    simp [satAux] at h
  | succ n ih =>
    intro f A h w hw
    rcases f with - | ⟨c, rest⟩
    · simp only [satAux, Option.some.injEq, SatOutcome.found.injEq] at h
      subst h
      simp [containsA, lookupA] at hw
    rcases c with - | ⟨⟨v, b⟩, ls⟩
    · simp [satAux] at h
    have hvmem : v ∈ fvarsL (((v, b) :: ls) :: rest) :=
      mem_fvarsL_of_mem _ ((v, b) :: ls) (v, b) (List.mem_cons_self _ _) (List.mem_cons_self _ _)
    have hseed : ∀ pol : Bool, containsA [(v, pol)] w = true → w = v := by
      intro pol hcw
      by_cases hwv : v = w
      · exact hwv.symm
      · simp [containsA, lookupA, hwv] at hcw
    rw [satAux_succ] at h
    cases ht1 : try_assignment n (((v, b) :: ls) :: rest) [(v, b)] with
    | none => simp [ht1] at h
    | some s1 =>
      cases s1 with
      | found a =>
        simp only [ht1, Option.some.injEq, SatOutcome.found.injEq] at h
        subst h
        rcases try_assignment_found_keys n _ [(v, b)] _ ih ht1 w hw with h1 | h1
        · rw [hseed b h1]
          exact hvmem
        · exact h1
      | crash => simp [ht1] at h
      | unsat =>
        simp only [ht1] at h
        cases ht2 : try_assignment n (((v, b) :: ls) :: rest) [(v, !b)] with
        | none => simp [ht2] at h
        | some s2 =>
          simp only [ht2] at h
          have hs2 : s2 = .found A := by injection h
          subst hs2
          rcases try_assignment_found_keys n _ [(v, !b)] _ ih ht2 w hw with h1 | h1
          · rw [hseed (!b) h1]
            exact hvmem
          · exact h1

/-- The solver recursion cannot run out of fuel exceeding the number of
distinct formula variables: the residual formula of each recursive call has
strictly fewer distinct variables. -/
theorem satAux_ne_none : ∀ (n : Nat) (f : Formula), (fvars f).card < n → satAux n f ≠ none := by
  intro n
  induction n with
  | zero =>
    intro f h
    exact absurd h (Nat.not_lt_zero _)
  | succ n ih =>
    intro f h
    rcases f with - | ⟨c, rest⟩
    · simp [satAux]
    rcases c with - | ⟨⟨v, b⟩, ls⟩
    · simp [satAux]
    have hv : v ∈ fvars (((v, b) :: ls) :: rest) := by
      rw [mem_fvars]
      exact mem_fvarsL_of_mem _ ((v, b) :: ls) (v, b) (List.mem_cons_self _ _)
        (List.mem_cons_self _ _)
    have htry : ∀ pol : Bool, try_assignment n (((v, b) :: ls) :: rest) [(v, pol)] ≠ none := by
      intro pol
      cases hp : propagate (((v, b) :: ls) :: rest) [(v, pol)] with
      | none => exact absurd hp (propagate_ne_none _ _)
      | some r =>
        cases r with
        | contradiction => simp [try_assignment, hp]
        | done f' a' =>
          simp only [try_assignment, hp]
          have hcard : (fvars f').card < (fvars (((v, b) :: ls) :: rest)).card :=
            propagate_done_card hp v hv (by simp [containsA, lookupA])
          have hne : satAux n f' ≠ none := ih f' (by omega)
          cases hs : satAux n f' with
          | none => exact absurd hs hne
          | some s => cases s <;> simp
    rw [satAux_succ]
    cases ht1 : try_assignment n (((v, b) :: ls) :: rest) [(v, b)] with
    | none => exact absurd ht1 (htry b)
    | some s1 =>
      cases s1 with
      | found a => simp
      | crash => simp
      | unsat =>
        cases ht2 : try_assignment n (((v, b) :: ls) :: rest) [(v, !b)] with
        | none => exact absurd ht2 (htry (!b))
        | some s2 => simp

/-- Fuel irrelevance of one trial, assuming fuel irrelevance of the
recursive call. -/
theorem try_assignment_stable (n m : Nat) (f : Formula) (temp : Assignment)
    (IH : ∀ f1 : Formula, satAux n f1 ≠ none → satAux m f1 = satAux n f1)
    (hne : try_assignment n f temp ≠ none) :
    try_assignment m f temp = try_assignment n f temp := by
  cases hp : propagate f temp with
  | none => simp [try_assignment, hp]
  | some r =>
    cases r with
    | contradiction => simp [try_assignment, hp]
    | done f' a' =>
      simp only [try_assignment, hp] at hne ⊢
      have h1 : satAux n f' ≠ none := by
        intro h0
        rw [h0] at hne
        simp at hne
      rw [IH f' h1]

/-- Fuel irrelevance of the solver recursion: any fuel that does not run out
computes the same answer. -/
theorem satAux_stable : ∀ (n m : Nat), n ≤ m → ∀ f : Formula,
    satAux n f ≠ none → satAux m f = satAux n f := by
  intro n
  induction n with
  | zero =>
    intro m _ f hne
    exact absurd rfl hne
  | succ n ih =>
    intro m hm f hne
    obtain ⟨m', rfl⟩ : ∃ m', m = m' + 1 := ⟨m - 1, by omega⟩
    have hm' : n ≤ m' := by omega
    rcases f with - | ⟨c, rest⟩
    · simp [satAux]
    rcases c with - | ⟨⟨v, b⟩, ls⟩
    · simp [satAux]
    rw [satAux_succ] at hne
    rw [satAux_succ, satAux_succ]
    have ht1ne : try_assignment n (((v, b) :: ls) :: rest) [(v, b)] ≠ none := by
      intro h0
      rw [h0] at hne
      simp at hne
    rw [try_assignment_stable n m' _ [(v, b)] (ih m' hm') ht1ne]
    cases ht1 : try_assignment n (((v, b) :: ls) :: rest) [(v, b)] with
    | none => exact absurd ht1 ht1ne
    | some s1 =>
      cases s1 with
      | found a => rfl
      | crash => rfl
      | unsat =>
        rw [ht1] at hne
        have ht2ne : try_assignment n (((v, b) :: ls) :: rest) [(v, !b)] ≠ none := by
          intro h0
          rw [h0] at hne
          simp at hne
        rw [try_assignment_stable n m' _ [(v, !b)] (ih m' hm') ht2ne]

/-- A pass reporting no unit clause is a fixpoint: rerunning on its output
with the post-call dict changes nothing. -/
theorem simplify_fix_of_flagfalse {f : Formula} {a : Assignment} {f' : Formula} {a' : Assignment}
    (h : simplify_with_unit_clauses f a = some (f', false, a')) :
    simplify_with_unit_clauses f' a' = some (f', false, a') := by
  obtain ⟨ha, hcl⟩ := simplifyGo_flagfalse f a [] f' a' h
  subst ha
  have hprop : ∀ c ∈ f', 2 ≤ c.length ∧ ∀ l ∈ c, lookupA a' l.1 = none := by
    intro c hc
    rcases hcl c hc with h1 | h1
    · simp at h1
    · exact h1
  simpa [simplify_with_unit_clauses] using simplifyGo_rerun f' a' [] false hprop

/-- C1: whenever `satisfying_assignment` returns a dict, every clause of the
input formula contains at least one literal `(v, b)` with the dict mapping
`v` to `b`; the solver never returns a dict that fails some clause. -/
theorem C1_solver_sound (F : Formula) (A : Assignment)
    (h : satisfying_assignment F = some (.found A)) : satisfiesFormula A F :=
  satAux_found_sound _ F A h

/-- Witness for C1: a concrete run on a satisfiable formula. -/
theorem C1_solver_sound_witness :
    satisfiesFormula [("a", true)] [[("a", true), ("b", false)]] :=
  C1_solver_sound [[("a", true), ("b", false)]] [("a", true)] (by decide)

/-- C2: whenever `satisfying_assignment` returns `None` (UNSATISFIABLE), no
total assignment of booleans to variables satisfies every clause of the
formula. -/
theorem C2_solver_complete (F : Formula)
    (h : satisfying_assignment F = some .unsat) :
    ∀ g : Var → Bool, ¬ satisfiesTotal g F :=
  satAux_unsat_complete _ F h

/-- Witness for C2: a concrete run on an unsatisfiable formula. -/
theorem C2_solver_complete_witness :
    ¬ satisfiesTotal (fun _ => true) [[("a", true)], [("a", false)]] :=
  C2_solver_complete [[("a", true)], [("a", false)]] (by decide) (fun _ => true)

/-- C3: the claim fails on the code: when the FIRST clause of the formula is
empty, `formula[0][0]` raises an uncaught IndexError (the `crash` outcome)
instead of returning `None`; an empty clause in any later position does
return `None` as the claim states. -/
theorem C3_empty_first_clause_crashes :
    satisfying_assignment [[]] = some .crash
    ∧ satisfying_assignment [[("b", true)], []] = some .unsat := by
  exact ⟨by decide, by decide⟩

/-- C4: per-clause behaviour of `simplify_with_unit_clauses`: a literal
whose variable is assigned with non-matching value is omitted from the scan;
a clause containing a literal whose variable is assigned with matching value
is dropped entirely; a clause reduced to zero literals short-circuits the
whole call with CONTRADICTION; a clause reduced to exactly one literal sets
that variable in the dict, forces the unit flag of the final result, and is
not emitted; a clause with two or more remaining literals is appended to the
output formula. -/
theorem C4_simplify_clause_processing (a : Assignment) (clause : Clause) (rest : Formula) :
    (∀ (v : Var) (val c : Bool) (ls2 : Clause), lookupA a v = some c → c ≠ val →
      scanClause a ((v, val) :: ls2) = scanClause a ls2)
    ∧ ((∃ l ∈ clause, lookupA a l.1 = some l.2) →
      simplify_with_unit_clauses (clause :: rest) a = simplify_with_unit_clauses rest a)
    ∧ (scanClause a clause = .reduced [] →
      simplify_with_unit_clauses (clause :: rest) a = none)
    ∧ (∀ (w : Var) (d : Bool), scanClause a clause = .reduced [(w, d)] →
      simplify_with_unit_clauses (clause :: rest) a =
        match simplify_with_unit_clauses rest (setA a w d) with
        | none => none
        | some (f', _, a') => some (f', true, a'))
    ∧ (∀ (l1 l2 : Literal) (ls2 : List Literal),
      scanClause a clause = .reduced (l1 :: l2 :: ls2) →
      simplify_with_unit_clauses (clause :: rest) a =
        match simplify_with_unit_clauses rest a with
        | none => none
        | some (f', u', a') => some ((l1 :: l2 :: ls2) :: f', u', a')) := by
  refine ⟨?_, ?_, ?_, ?_, ?_⟩
  · intro v val c ls2 hl hne
    simp [scanClause, hl, hne]
  · intro hsat
    have hs : scanClause a clause = .satisfied := (scanClause_satisfied_iff a clause).mpr hsat
    show simplifyGo a [] false (clause :: rest) = _
    simp only [simplifyGo, hs]
    rfl
  · intro hs
    show simplifyGo a [] false (clause :: rest) = none
    simp [simplifyGo, hs]
  · intro w d hs
    have h1 : simplify_with_unit_clauses (clause :: rest) a =
        simplifyGo (setA a w d) [] true rest := by
      show simplifyGo a [] false (clause :: rest) = _
      simp [simplifyGo, hs]
    rw [h1, simplifyGo_eq_base]
    cases h2 : simplify_with_unit_clauses rest (setA a w d) with
    | none =>
      rw [show simplifyGo (setA a w d) [] false rest = none from h2]
    | some r =>
      obtain ⟨f', u', a'⟩ := r
      rw [show simplifyGo (setA a w d) [] false rest = some (f', u', a') from h2]
      simp
  · intro l1 l2 ls2 hs
    have h1 : simplify_with_unit_clauses (clause :: rest) a =
        simplifyGo a [l1 :: l2 :: ls2] false rest := by
      show simplifyGo a [] false (clause :: rest) = _
      simp [simplifyGo, hs]
    rw [h1, simplifyGo_eq_base]
    cases h2 : simplify_with_unit_clauses rest a with
    | none =>
      rw [show simplifyGo a [] false rest = none from h2]
    | some r =>
      obtain ⟨f', u', a'⟩ := r
      rw [show simplifyGo a [] false rest = some (f', u', a') from h2]
      simp

/-- Witness for C4: each conjunct evaluated at a concrete instance. -/
theorem C4_simplify_clause_processing_witness :
    scanClause [("a", true)] [("a", false), ("b", true)] = scanClause [("a", true)] [("b", true)]
    ∧ simplify_with_unit_clauses [[("a", true)], [("b", true), ("c", true)]] [("a", true)] =
        simplify_with_unit_clauses [[("b", true), ("c", true)]] [("a", true)]
    ∧ simplify_with_unit_clauses [[("a", false)], [("b", true)]] [("a", true)] = none
    ∧ simplify_with_unit_clauses [[("b", true)], [("c", true), ("d", true)]] [] =
        (match simplify_with_unit_clauses [[("c", true), ("d", true)]] (setA [] "b" true) with
         | none => none
         | some (f', _, a') => some (f', true, a'))
    ∧ simplify_with_unit_clauses [[("c", true), ("d", true)]] [] =
        (match simplify_with_unit_clauses [] [] with
         | none => none
         | some (f', u', a') => some ((("c", true) :: ("d", true) :: []) :: f', u', a')) := by
  refine ⟨?_, ?_, ?_, ?_, ?_⟩
  · exact (C4_simplify_clause_processing [("a", true)] [] []).1 "a" false true [("b", true)]
      (by decide) (by decide)
  · exact (C4_simplify_clause_processing [("a", true)] [("a", true)]
      [[("b", true), ("c", true)]]).2.1 (by decide)
  · exact (C4_simplify_clause_processing [("a", true)] [("a", false)]
      [[("b", true)]]).2.2.1 (by decide)
  · exact (C4_simplify_clause_processing [] [("b", true)]
      [[("c", true), ("d", true)]]).2.2.2.1 "b" true (by decide)
  · exact (C4_simplify_clause_processing [] [("c", true), ("d", true)] []).2.2.2.2
      ("c", true) ("d", true) [] (by decide)

/-- C5 counterexample: the claim fails on the code: a pass that finds a unit
clause after already emitting a clause is not a fixpoint — rerunning on its
output with the post-call dict drops the emitted clause (returns the empty
list) instead of returning the identical clause list. -/
theorem C5_counterexample :
    simplify_with_unit_clauses [[("a", true), ("b", true)], [("a", true)]] [] =
      some ([[("a", true), ("b", true)]], true, [("a", true)])
    ∧ simplify_with_unit_clauses [[("a", true), ("b", true)]] [("a", true)] =
      some ([], false, [("a", true)])
    ∧ ([] : Formula) ≠ [[("a", true), ("b", true)]] :=
  ⟨by decide, by decide, by decide⟩

/-- C5 amended: idempotence of propagation holds for every pass that reports
no unit clause — in particular for the output the fixpoint loop hands to the
search: rerunning `simplify_with_unit_clauses` on such output with the
post-call dict returns the identical clause list, flag `False`, dict
unchanged. -/
theorem C5_simplify_idempotent_of_no_unit (f : Formula) (a : Assignment)
    (f' : Formula) (a' : Assignment)
    (h : simplify_with_unit_clauses f a = some (f', false, a')) :
    simplify_with_unit_clauses f' a' = some (f', false, a') :=
  simplify_fix_of_flagfalse h

/-- Witness for the amended C5. -/
theorem C5_simplify_idempotent_witness :
    simplify_with_unit_clauses [[("a", true), ("b", true)]] [] =
      some ([[("a", true), ("b", true)]], false, []) :=
  C5_simplify_idempotent_of_no_unit [[("a", true), ("b", true)]] []
    [[("a", true), ("b", true)]] [] (by decide)

/-- C6: on a formula with a nonempty first clause the solver branches on
exactly the first literal of the first clause, trying the as-written
polarity first and its negation second: a successful first trial is
returned outright, and when the first trial reports UNSATISFIABLE the final
result is the second trial result. -/
theorem C6_branching_order (v : Var) (b : Bool) (ls : Clause) (rest : Formula) :
    (∀ A : Assignment,
      try_assignment (fvars (((v, b) :: ls) :: rest)).card (((v, b) :: ls) :: rest) [(v, b)] =
        some (.found A) →
      satisfying_assignment (((v, b) :: ls) :: rest) = some (.found A))
    ∧ (try_assignment (fvars (((v, b) :: ls) :: rest)).card (((v, b) :: ls) :: rest) [(v, b)] =
        some .unsat →
      satisfying_assignment (((v, b) :: ls) :: rest) =
        try_assignment (fvars (((v, b) :: ls) :: rest)).card (((v, b) :: ls) :: rest) [(v, !b)]) := by
  constructor
  · intro A h
    rw [satisfying_assignment, satAux_succ, h]
  · intro h
    rw [satisfying_assignment, satAux_succ, h]
    cases try_assignment (fvars (((v, b) :: ls) :: rest)).card (((v, b) :: ls) :: rest)
        [(v, !b)] with
    | none => rfl
    | some r => rfl

/-- Witness for C6: the as-written polarity wins on a satisfiable formula;
after a failed first trial the second trial result is returned. -/
theorem C6_branching_order_witness :
    satisfying_assignment [[("a", true)]] = some (.found [("a", true)])
    ∧ satisfying_assignment [[("a", true)], [("a", false)]] =
        try_assignment (fvars [[("a", true)], [("a", false)]]).card
          [[("a", true)], [("a", false)]] [("a", !true)] := by
  constructor
  · exact (C6_branching_order "a" true [] []).1 [("a", true)] (by decide)
  · exact (C6_branching_order "a" true [] [[("a", false)]]).2 (by decide)

/-- C7: the solver terminates on every input formula: the top-level fuel
bound of one more than the number of distinct variables is never exhausted,
the inner propagation loop never exhausts its own bound (each unit pass
permanently assigns a fresh variable), and any larger fuel computes the same
answer, so the recursion depth is bounded by the number of distinct
variables. -/
theorem C7_termination (f : Formula) (a : Assignment) :
    satisfying_assignment f ≠ none
    ∧ propagate f a ≠ none
    ∧ ∀ n, (fvars f).card < n → satAux n f = satisfying_assignment f := by
  refine ⟨satAux_ne_none _ f (Nat.lt_succ_self _), propagate_ne_none f a, ?_⟩
  intro n hn
  have h1 : satAux ((fvars f).card + 1) f ≠ none := satAux_ne_none _ f (Nat.lt_succ_self _)
  rw [satisfying_assignment]
  rcases Nat.lt_or_ge n ((fvars f).card + 1) with hlt | hge
  · have hev : n = (fvars f).card + 1 := by omega
    rw [hev]
  · exact satAux_stable ((fvars f).card + 1) n hge f h1

/-- Witness for C7 at a concrete formula and fuel. -/
theorem C7_termination_witness :
    satisfying_assignment [[("a", true)]] ≠ none
    ∧ propagate [[("a", true)]] [] ≠ none
    ∧ satAux 5 [[("a", true)]] = satisfying_assignment [[("a", true)]] := by
  obtain ⟨h1, h2, h3⟩ := C7_termination [[("a", true)]] []
  exact ⟨h1, h2, h3 5 (by decide)⟩

/-- C8 counterexample: the claim fails on the code: after a pass that finds
a unit clause late, a variable of the non-CONTRADICTION output formula can
be present in the post-call assignments dict. -/
theorem C8_counterexample :
    simplify_with_unit_clauses [[("a", true), ("b", true)], [("a", true)]] [] =
      some ([[("a", true), ("b", true)]], true, [("a", true)])
    ∧ "a" ∈ fvarsL [[("a", true), ("b", true)]]
    ∧ containsA [("a", true)] "a" = true :=
  ⟨by decide, by decide, by decide⟩

/-- C8 amended: the disjointness invariant holds for passes reporting no
unit clause — in particular for the propagation fixpoint the search recurses
on — hence at the merge in `try_assignment` the key set of the recursive
result is disjoint from the key set of the propagated seed dict, so the dict
update overwrites no binding. -/
theorem C8_merge_disjoint (n : Nat) (f : Formula) (a temp : Assignment)
    (f' : Formula) (a' asg : Assignment) :
    (simplify_with_unit_clauses f a = some (f', false, a') →
      ∀ w ∈ fvarsL f', lookupA a' w = none)
    ∧ (propagate f temp = some (.done f' a') → satAux n f' = some (.found asg) →
      ∀ w, ¬(containsA asg w = true ∧ containsA a' w = true)) := by
  constructor
  · intro h w hw
    obtain ⟨ha, hcl⟩ := simplifyGo_flagfalse f a [] f' a' h
    subst ha
    obtain ⟨c, hc, l, hl, hlw⟩ := (mem_fvarsL f' w).mp hw
    rcases hcl c hc with h1 | ⟨-, h2⟩
    · simp at h1
    · rw [← hlw]
      exact h2 l hl
  · intro hp hs w h12
    obtain ⟨h1, h2⟩ := h12
    have hwf' : w ∈ fvarsL f' := satAux_found_keys n f' asg hs w h1
    have hnone : lookupA a' w = none := propagateAux_done_unassigned _ f temp f' a' hp w hwf'
    simp [containsA, hnone] at h2

/-- Witness for the amended C8. -/
theorem C8_merge_disjoint_witness :
    lookupA [] "a" = none
    ∧ ¬(containsA [] "b" = true ∧ containsA [("a", true)] "b" = true) := by
  constructor
  · exact (C8_merge_disjoint 1 [[("a", true), ("b", true)]] [] []
      [[("a", true), ("b", true)]] [] []).1 (by decide) "a" (by decide)
  · exact (C8_merge_disjoint 1 [[("a", true), ("b", true)]] [] [("a", true)]
      [] [("a", true)] []).2 (by decide) (by decide) "b"

/-- C10: every key of a dict returned by `satisfying_assignment` is a
variable occurring in some literal of some clause of the input formula. -/
theorem C10_no_spurious_keys (F : Formula) (A : Assignment)
    (h : satisfying_assignment F = some (.found A)) :
    ∀ w, containsA A w = true → w ∈ fvarsL F :=
  satAux_found_keys _ F A h

/-- Witness for C10 at a concrete run. -/
theorem C10_no_spurious_keys_witness : "a" ∈ fvarsL [[("a", true), ("b", false)]] :=
  C10_no_spurious_keys [[("a", true), ("b", false)]] [("a", true)] (by decide) "a" (by decide)

